import Mathlib

/-!
The library openidmask, file `libopenidmask/Mask.cpp`

A shallow embedding of the three functions of `Mask.cpp`

* `Mask::Mask (const char *filename)`                      (`Mask.Mask_file`)
* `Mask::Mask (int, int, const map&, const vector&)`       (`Mask.Mask_pixels`)
* `Mask::write (const char *filename, Compression)`        (`Mask.write`)

Conventions of the embedding.

* `std::vector<T>` and `std::string` are lists; a `char` is a natural number.
* `uint32_t` values are natural numbers reduced by `u32` at every place where
  the source stores or computes in 32 unsigned bits.  `int` and `size_t` values
  are integers / naturals without wrap-around (the `size_t` counters of the
  source count bytes or elements of objects that exist in memory).
* `float` is carried as its 32-bit pattern: the source only copies coverages.
* A pointer into `_Samples` is the index of the element it addresses; forming it
  (`&_Samples[k].Id`) reads and writes nothing, the accesses are those made through it.
* A run of the code that throws, or that reads or writes outside a container,
  is an `Except.error` carrying a `Failure`.
-/

namespace openidmask

/-! ## Data model -/

/-- Reduction of a natural number to the range of `uint32_t`. -/
def u32 (n : Nat) : Nat := n % 4294967296

/-- The struct `Sample` of the source: `uint32_t Id; float Coverage;`. -/
structure Sample where
  Id : Nat
  Coverage : Nat
deriving DecidableEq, Repr

/-- The data members of `class Mask`. -/
structure Mask where
  _Width : Int
  _Height : Int
  _Names : List Nat
  _NamesIndexes : List Nat
  _PixelsIndexes : List Nat
  _Samples : List Sample
deriving DecidableEq, Repr

/-- The ways a run of the code can end without a result. -/
inductive Failure where
  /-- The exception thrown at line 48: "The Names attribute is missing". -/
  | missingNames
  /-- The `std::length_error` of `reserve` / `resize` for a negative `int` size. -/
  | lengthError
  /-- An element access or copy outside the bounds of its container. -/
  | outOfRange
  /-- The `assert` of line 75 does not hold. -/
  | assertion
  /-- A `while` loop of the model ran out of fuel. -/
  | fuel
deriving DecidableEq, Repr

/-- A `std::map<std::string, uint32_t>` as the list of its entries in iteration order. -/
abbrev NameMap := List (List Nat × Nat)

/-! ## `Mask::Mask (int width, int height, nameToId, pixels)` -/

/-- Lines 140-142, on `_NamesIndexes` already resized:
`for (kv : nameToId) _NamesIndexes[kv.second] = (uint32_t)kv.first.length()+1;` -/
def fillNameSizes : NameMap → List Nat → Except Failure (List Nat)
  | [], idx => .ok idx
  | kv :: rest, idx =>
    if kv.2 < idx.length then
      fillNameSizes rest (idx.set kv.2 (u32 (u32 kv.1.length + 1)))
    else .error .outOfRange

/-- The accumulation loop, lines 145-151 (and, with the same body, lines 103-110):
`for (auto &i : v) { tmp = i; i = index; index += tmp; }` with `uint32_t index`.
Returns the rewritten vector and the final value of `index`. -/
def accumulate : List Nat → Nat → List Nat × Nat
  | [], index => ([], index)
  | tmp :: rest, index =>
    let r := accumulate rest (u32 (index + tmp))
    (index :: r.1, r.2)

/-- The call `copy (src.begin (), src.end (), dst.begin () + pos)`. -/
def copyAt (dst : List Nat) (pos : Nat) (src : List Nat) : Except Failure (List Nat) :=
  if pos + src.length ≤ dst.length then
    .ok (dst.take pos ++ src ++ dst.drop (pos + src.length))
  else .error .outOfRange

/-- Lines 157-158: `for (kv : nameToId)
copy (kv.first.begin (), kv.first.end (), _Names.begin()+_NamesIndexes[kv.second]);` -/
def copyNames : NameMap → List Nat → List Nat → Except Failure (List Nat)
  | [], _, names => .ok names
  | kv :: rest, idx, names =>
    match idx[kv.2]? with
    | none => .error .outOfRange
    | some pos =>
      match copyAt names pos kv.1 with
      | .error e => .error e
      | .ok names1 => copyNames rest idx names1

/-- Lines 136-158: the name table `(_Names, _NamesIndexes)` built from `nameToId`. -/
def buildNames (nameToId : NameMap) : Except Failure (List Nat × List Nat) :=
  match fillNameSizes nameToId (List.replicate nameToId.length 0) with
  | .error e => .error e
  | .ok sizes =>
    let r := accumulate sizes 0
    match copyNames nameToId r.1 (List.replicate r.2 0) with
    | .error e => .error e
    | .ok names => .ok (names, r.1)

/-- Lines 167-171: `for (p : pixels) { _PixelsIndexes.push_back ((uint32_t)indexN);
indexN += p.size (); }` with `size_t indexN`.  Returns `_PixelsIndexes` and the final `indexN`. -/
def pushPixelsIndexes : List (List Sample) → Nat → List Nat → List Nat × Nat
  | [], indexN, pixelsIndexes => (pixelsIndexes, indexN)
  | p :: rest, indexN, pixelsIndexes =>
    pushPixelsIndexes rest (indexN + p.length) (pixelsIndexes ++ [u32 indexN])

/-- Lines 177-178: `for (samples : pixels)
_Samples.insert (_Samples.end (), samples.begin (), samples.end ());` -/
def insertSamples : List (List Sample) → List Sample → List Sample
  | [], acc => acc
  | samples :: rest, acc => insertSamples rest (acc ++ samples)

/-- Lines 160-178: `(_PixelsIndexes, _Samples)` built from `pixels`.
`reserve (width*height+1)` throws `std::length_error` when its `int` argument is negative. -/
def buildPixels (width height : Int) (pixels : List (List Sample)) :
    Except Failure (List Nat × List Sample) :=
  if width * height + 1 < 0 then .error .lengthError
  else
    let r := pushPixelsIndexes pixels 0 []
    .ok (r.1 ++ [u32 r.2], insertSamples pixels [])

/-- The constructor `Mask::Mask (int width, int height, nameToId, pixels)`, lines 132-179. -/
def Mask.Mask_pixels (width height : Int) (nameToId : NameMap) (pixels : List (List Sample)) :
    Except Failure Mask :=
  match buildNames nameToId with
  | .error e => .error e
  | .ok nt =>
    match buildPixels width height pixels with
    | .error e => .error e
    | .ok px =>
      .ok { _Width := width, _Height := height, _Names := nt.1, _NamesIndexes := nt.2,
            _PixelsIndexes := px.1, _Samples := px.2 }

/-! ## `Mask::Mask (const char *filename)` -/

/-- What the constructor obtains from the deep scan-line file through the OpenEXR calls:
the extent of the data window (`dataWindow.max - dataWindow.min + 1` on each axis), the value of
the `Names` string attribute when the header has one, the sample count of the pixel of linear
index `p = y*width + x` (delivered by `readPixelSampleCounts`), and the `k`-th sample of that
pixel (delivered by `readPixels`). -/
structure DeepScanLineInputFile where
  width : Nat
  height : Nat
  names : Option (List Nat)
  sampleCount : Nat → Nat
  sample : Nat → Nat → Sample

/-- The call `strnlen (&s[start], maxlen)`. -/
def strnlen (s : List Nat) (start maxlen : Nat) : Nat :=
  (((s.drop start).take maxlen).takeWhile (fun c => c != 0)).length

/-- Lines 56-61: `while (index < _Names.size ()) { index += strnlen (..)+1; ++namesN; }`. -/
def countNamesLoop (names : List Nat) : Nat → Nat → Nat → Except Failure Nat
  | 0, _, _ => .error .fuel
  | fuel + 1, index, namesN =>
    if index < names.length then
      countNamesLoop names fuel (index + strnlen names index (names.length - index) + 1)
        (namesN + 1)
    else .ok namesN

/-- Lines 68-74: `while (index < _Names.size ()) { _NamesIndexes.push_back ((uint32_t)index);
index += strnlen (..)+1; }`. -/
def indexNamesLoop (names : List Nat) : Nat → Nat → List Nat → Except Failure (List Nat)
  | 0, _, _ => .error .fuel
  | fuel + 1, index, namesIndexes =>
    if index < names.length then
      indexNamesLoop names fuel (index + strnlen names index (names.length - index) + 1)
        (namesIndexes ++ [u32 index])
    else .ok namesIndexes

/-- Lines 53-76: `_NamesIndexes` computed from `_Names`; each loop advances `index` by at least
one, so `_Names.size () + 1` units of fuel are given to each. -/
def parseNames (names : List Nat) : Except Failure (List Nat) :=
  match countNamesLoop names (names.length + 1) 0 0 with
  | .error e => .error e
  | .ok namesN =>
    match indexNamesLoop names (names.length + 1) 0 [] with
    | .error e => .error e
    | .ok namesIndexes =>
      if namesIndexes.length = namesN then .ok namesIndexes else .error .assertion

/-- Lines 83-86 and 99: `readPixelSampleCounts` writes the count of pixel `p` into
`_PixelsIndexes[p]` for the `width*height` pixels of the image; further slots are untouched. -/
def readPixelSampleCounts (file : DeepScanLineInputFile) (pixelsIndexes : List Nat) : List Nat :=
  (List.range (file.width * file.height)).map (fun p => u32 (file.sampleCount p))
    ++ pixelsIndexes.drop (file.width * file.height)

/-- Lines 120-125, the loop over `x` of one line: `id[x] = &_Samples[_PixelsIndexes[i]].Id;
coverage[x] = &_Samples[_PixelsIndexes[i]].Coverage;` for `w` pixels starting at linear index `i`.
Returns the arrays `id` and `coverage`. -/
def setCursors (pixelsIndexes : List Nat) : Nat → Nat → Except Failure (List Nat × List Nat)
  | 0, _ => .ok ([], [])
  | w + 1, i =>
    match pixelsIndexes[i]? with
    | none => .error .outOfRange
    | some c =>
      match setCursors pixelsIndexes w (i + 1) with
      | .error e => .error e
      | .ok r => .ok (c :: r.1, c :: r.2)

/-- A store `*ptr = v` through a pointer to the `Id` member of `_Samples[j]`. -/
def storeId (samples : List Sample) (j v : Nat) : Except Failure (List Sample) :=
  match samples[j]? with
  | none => .error .outOfRange
  | some s => .ok (samples.set j { s with Id := v })

/-- A store `*ptr = v` through a pointer to the `Coverage` member of `_Samples[j]`. -/
def storeCoverage (samples : List Sample) (j v : Nat) : Except Failure (List Sample) :=
  match samples[j]? with
  | none => .error .outOfRange
  | some s => .ok (samples.set j { s with Coverage := v })

/-- The part of `readPixels (y)` for one pixel `p`: the samples `k, k+1, ..` of the pixel (`n` of
them) are stored through the pixel's `id` and `coverage` pointers, with a stride of one `Sample`. -/
def readPixel (file : DeepScanLineInputFile) (p id coverage : Nat) :
    Nat → Nat → List Sample → Except Failure (List Sample)
  | 0, _, samples => .ok samples
  | n + 1, k, samples =>
    match storeId samples (id + k) (file.sample p k).Id with
    | .error e => .error e
    | .ok s1 =>
      match storeCoverage s1 (coverage + k) (file.sample p k).Coverage with
      | .error e => .error e
      | .ok s2 => readPixel file p id coverage n (k + 1) s2

/-- The call `file.readPixels (y)`: the pixels `x, x+1, ..` of line `y` are read through the
remaining entries of the arrays `id` and `coverage`. -/
def readPixels (file : DeepScanLineInputFile) (y : Nat) :
    List Nat → List Nat → Nat → List Sample → Except Failure (List Sample)
  | i :: id, c :: coverage, x, samples =>
    match readPixel file (y * file.width + x) i c
        (u32 (file.sampleCount (y * file.width + x))) 0 samples with
    | .error e => .error e
    | .ok s => readPixels file y id coverage (x + 1) s
  | _, _, _, samples => .ok samples

/-- Lines 116-127: the loop over the lines, `h` lines from line `y`, `i` being the linear index
of the first pixel of line `y`. -/
def fillLoop (file : DeepScanLineInputFile) (pixelsIndexes : List Nat) :
    Nat → Nat → Nat → List Sample → Except Failure (List Sample)
  | 0, _, _, samples => .ok samples
  | h + 1, y, i, samples =>
    match setCursors pixelsIndexes file.width i with
    | .error e => .error e
    | .ok cursors =>
      match readPixels file y cursors.1 cursors.2 0 samples with
      | .error e => .error e
      | .ok s => fillLoop file pixelsIndexes h (y + 1) (i + file.width) s

/-- Lines 78-113: `_PixelsIndexes` after the accumulation loop, and the final `index`. -/
def countPhase (file : DeepScanLineInputFile) : List Nat × Nat :=
  accumulate (readPixelSampleCounts file (List.replicate (file.width * file.height + 1) 0)) 0

/-- Line 113: `_Samples.resize (index, {0,0})`. -/
def resizeSamples (index : Nat) : List Sample := List.replicate index ⟨0, 0⟩

/-- The constructor `Mask::Mask (const char *filename)`, lines 35-128. -/
def Mask.Mask_file (file : DeepScanLineInputFile) : Except Failure Mask :=
  match file.names with
  | none => .error .missingNames
  | some names =>
    match parseNames names with
    | .error e => .error e
    | .ok namesIndexes =>
      let r := countPhase file
      match fillLoop file r.1 file.height 0 0 (resizeSamples r.2) with
      | .error e => .error e
      | .ok samples =>
        .ok { _Width := file.width, _Height := file.height, _Names := names,
              _NamesIndexes := namesIndexes, _PixelsIndexes := r.1, _Samples := samples }

/-! ## `Mask::write` -/

/-- What `writePixels` finds for one pixel: the entry of `sampleCount` and the values read
through the entries of `id` and `coverage`. -/
structure DeepPixel where
  sampleCount : Nat
  id : List Nat
  coverage : List Nat
deriving DecidableEq, Repr

/-- What `Mask::write` hands to the output file: the header's size, the `Names` attribute and the
scan lines in the order written. -/
structure DeepScanLineOutputFile where
  width : Int
  height : Int
  names : List Nat
  scanLines : List (List DeepPixel)
deriving DecidableEq, Repr

/-- The per-pixel entries of the three line buffers of `Mask::write`. -/
structure LineEntry where
  sampleCount : Nat
  id : Nat
  coverage : Nat
deriving DecidableEq, Repr

/-- The `uint32_t` difference `b - a`. -/
def sub32 (b a : Nat) : Nat := u32 (u32 b + (4294967296 - u32 a))

/-- Lines 230-235, the loop over `x` of one line:
`sampleCount[x] = _PixelsIndexes[i+1] - _PixelsIndexes[i]; id[x] = &_Samples[_PixelsIndexes[i]].Id;
coverage[x] = &_Samples[_PixelsIndexes[i]].Coverage;` for `w` pixels from linear index `i`. -/
def setLine (pixelsIndexes : List Nat) : Nat → Nat → Except Failure (List LineEntry)
  | 0, _ => .ok []
  | w + 1, i =>
    match pixelsIndexes[i + 1]?, pixelsIndexes[i]? with
    | some b, some a =>
      match setLine pixelsIndexes w (i + 1) with
      | .error e => .error e
      | .ok rest => .ok ({ sampleCount := sub32 b a, id := a, coverage := a } :: rest)
    | _, _ => .error .outOfRange

/-- The values `writePixels` reads through a pointer to a member of `_Samples[cursor]`:
`n` values with a stride of one `Sample`. -/
def readRun (samples : List Sample) (member : Sample → Nat) (cursor n : Nat) :
    Except Failure (List Nat) :=
  if n = 0 then .ok []
  else if cursor + n ≤ samples.length then .ok (((samples.drop cursor).take n).map member)
  else .error .outOfRange

/-- The call `file.writePixels (1)` on the line buffers. -/
def writePixels (samples : List Sample) : List LineEntry → Except Failure (List DeepPixel)
  | [] => .ok []
  | e :: rest =>
    match readRun samples Sample.Id e.id e.sampleCount,
        readRun samples Sample.Coverage e.coverage e.sampleCount with
    | .ok ids, .ok coverages =>
      match writePixels samples rest with
      | .error err => .error err
      | .ok pixels =>
        .ok ({ sampleCount := e.sampleCount, id := ids, coverage := coverages } :: pixels)
    | .error err, _ => .error err
    | _, .error err => .error err

/-- Lines 226-237: the loop over the lines, `h` lines, `i` being the linear index of the first
pixel of the current line.  Returns the scan lines written. -/
def writeLoop (m : Mask) : Nat → Nat → Except Failure (List (List DeepPixel))
  | 0, _ => .ok []
  | h + 1, i =>
    match setLine m._PixelsIndexes m._Width.toNat i with
    | .error e => .error e
    | .ok line =>
      match writePixels m._Samples line with
      | .error e => .error e
      | .ok pixels =>
        match writeLoop m h (i + m._Width.toNat) with
        | .error e => .error e
        | .ok lines => .ok (pixels :: lines)

/-- The function `Mask::write`, lines 183-238. -/
def Mask.write (m : Mask) : Except Failure DeepScanLineOutputFile :=
  match writeLoop m m._Height.toNat 0 with
  | .error e => .error e
  | .ok lines =>
    .ok { width := m._Width, height := m._Height, names := m._Names, scanLines := lines }

/-- The half-open slice `xs[a : b]`. -/
def slice {α : Type} (xs : List α) (a b : Nat) : List α := (xs.drop a).take (b - a)

/-- The sum of the first `i` entries of `lens`. -/
def prefixSum (lens : List Nat) (i : Nat) : Nat := (lens.take i).sum

/-- The zero-terminated string that starts at `names[offset]`. -/
def cstringAt (names : List Nat) (offset : Nat) : List Nat :=
  (names.drop offset).takeWhile (fun c => c != 0)

/-- The CSR invariant of a sample store of `n` pixels: `n + 1` offsets, the first one zero,
non-decreasing, the last one the number of samples. -/
def CSR (n : Nat) (rowOffsets : List Nat) (samples : List Sample) : Prop :=
  rowOffsets.length = n + 1 ∧ rowOffsets[0]? = some 0 ∧
    (∀ i, i < n → rowOffsets.getD i 0 ≤ rowOffsets.getD (i + 1) 0) ∧
    rowOffsets[n]? = some samples.length

instance (n : Nat) (rowOffsets : List Nat) (samples : List Sample) :
    Decidable (CSR n rowOffsets samples) := by
  unfold CSR; infer_instance

/-- The sample counts of the pixels of a file, in scan order, as stored in `uint32_t` slots. -/
def DeepScanLineInputFile.counts (file : DeepScanLineInputFile) : List Nat :=
  (List.range (file.width * file.height)).map (fun p => u32 (file.sampleCount p))

/-- The identifiers of the map are exactly `0 .. N-1`, `N` the number of names: the list of the
identifiers is a rearrangement of `0, 1, .., N-1`. -/
def Dense (nameToId : NameMap) : Prop :=
  (nameToId.map Prod.snd).Perm (List.range nameToId.length)

instance (nameToId : NameMap) : Decidable (Dense nameToId) := by
  unfold Dense; infer_instance

/-- The name the map gives to the identifier `id` (the empty string when there is none). -/
def nameOf (nameToId : NameMap) (id : Nat) : List Nat :=
  match nameToId.find? (fun kv => kv.2 == id) with
  | some kv => kv.1
  | none => []

/-- The names of the map in identifier order `0, 1, .., N-1`. -/
def namesById (nameToId : NameMap) : List (List Nat) :=
  (List.range nameToId.length).map (nameOf nameToId)

/-- Each string followed by one zero byte, one after the other. -/
def zeroTerminated (strings : List (List Nat)) : List Nat :=
  (strings.map (fun s => s ++ [0])).flatten

/-- The encoded sizes (bytes and terminator) of a list of strings. -/
def encodedSizes (strings : List (List Nat)) : List Nat :=
  strings.map (fun s => s.length + 1)

/-- The entry `_PixelsIndexes[q]` of a store (0 when there is none). -/
def Mask.offset (m : Mask) (q : Nat) : Nat := m._PixelsIndexes.getD q 0

/-- The count and the id and coverage runs of pixel `q` of a store: the difference of the two
offsets of the pixel and the members of `_Samples[_PixelsIndexes[q] : _PixelsIndexes[q+1]]`. -/
def Mask.view (m : Mask) (q : Nat) : DeepPixel :=
  { sampleCount := m.offset (q + 1) - m.offset q
    id := (slice m._Samples (m.offset q) (m.offset (q + 1))).map Sample.Id
    coverage := (slice m._Samples (m.offset q) (m.offset (q + 1))).map Sample.Coverage }

/-- A 3x1 file without `Names` attribute whose pixels hold 2, 0 and 3 samples. -/
def file203 : DeepScanLineInputFile :=
  ⟨3, 1, none, fun p => [2, 0, 3].getD p 0, fun _ _ => ⟨0, 0⟩⟩

/-- A 2x1 file whose pixels hold 1 and 0 samples, with the names buffer `foo\0`. -/
def file10 : DeepScanLineInputFile :=
  ⟨2, 1, some [102, 111, 111, 0], fun p => if p = 0 then 1 else 0,
    fun _ _ => ⟨5, 1056964608⟩⟩

/-- A 2x1 store whose first pixel holds the coverages 2.0 and -1.0 and the second one 0.5. -/
def storeWide : Mask :=
  { _Width := 2, _Height := 1, _Names := [], _NamesIndexes := [], _PixelsIndexes := [0, 2, 3],
    _Samples := [⟨7, 1073741824⟩, ⟨7, 3212836864⟩, ⟨8, 1056964608⟩] }

/-- A 2x1 store whose offsets decrease: `_PixelsIndexes[2] = 1 < 2 = _PixelsIndexes[1]`. -/
def storeCorrupt : Mask :=
  { _Width := 2, _Height := 1, _Names := [], _NamesIndexes := [], _PixelsIndexes := [0, 2, 1],
    _Samples := [⟨7, 0⟩, ⟨8, 0⟩] }

/-- A 1x1 store of 2^32 samples whose offsets decrease: `_PixelsIndexes = [1, 0]`. -/
def storeCorruptBig : Mask :=
  { _Width := 1, _Height := 1, _Names := [], _NamesIndexes := [], _PixelsIndexes := [1, 0],
    _Samples := List.replicate 4294967296 ⟨7, 0⟩ }

/-- The map that gives the identifier 0 to the name made of 4294967295 bytes `a` and the
identifier 1 to the name made of 4294967294 bytes `b`. -/
def hugeNames : NameMap :=
  [(List.replicate 4294967295 97, 0), (List.replicate 4294967294 98, 1)]

/-- The map `{"bar": 1, "foo": 0}`, in key order. -/
def fooBar : NameMap := [([98, 97, 114], 1), ([102, 111, 111], 0)]

/-- The map `{"a\0b": 0}`: one name with a zero byte inside. -/
def zeroInside : NameMap := [([97, 0, 98], 0)]

theorem u32_of_lt {n : Nat} (h : n < 4294967296) : u32 n = n := Nat.mod_eq_of_lt h

theorem u32_lt (n : Nat) : u32 n < 4294967296 := Nat.mod_lt _ (by decide)

theorem u32_add_u32_left (a b : Nat) : u32 (u32 a + b) = u32 (a + b) := by
  unfold u32; omega

theorem prefixSum_zero (lens : List Nat) : prefixSum lens 0 = 0 := by
  simp [prefixSum]

theorem prefixSum_cons_succ (a : Nat) (lens : List Nat) (i : Nat) :
    prefixSum (a :: lens) (i + 1) = a + prefixSum lens i := by
  simp [prefixSum]

theorem prefixSum_le_sum (lens : List Nat) (i : Nat) : prefixSum lens i ≤ lens.sum := by
  induction lens generalizing i with
  | nil => simp [prefixSum]
  | cons a t ih =>
    cases i with
    | zero => simp [prefixSum]
    | succ i => rw [prefixSum_cons_succ]; have := ih i; simp; omega

theorem prefixSum_mono (lens : List Nat) (i : Nat) :
    prefixSum lens i ≤ prefixSum lens (i + 1) := by
  induction lens generalizing i with
  | nil => simp [prefixSum]
  | cons a t ih =>
    cases i with
    | zero => simp [prefixSum]
    | succ i => rw [prefixSum_cons_succ, prefixSum_cons_succ]; have := ih i; omega

theorem prefixSum_length (lens : List Nat) : prefixSum lens lens.length = lens.sum := by
  simp [prefixSum]

theorem prefixSum_succ (lens : List Nat) (i : Nat) (h : i < lens.length) :
    prefixSum lens (i + 1) = prefixSum lens i + lens[i] := by
  induction lens generalizing i with
  | nil => simp at h
  | cons a t ih =>
    cases i with
    | zero => simp [prefixSum]
    | succ i =>
      rw [prefixSum_cons_succ, prefixSum_cons_succ, ih i (by simpa using h)]
      simp; omega

/-! ## Lemmas on the loops of the constructors -/

/-- The accumulation loop stores the prefix sums reduced to 32 bits. -/
theorem accumulate_eq (lens : List Nat) (index : Nat) (h : index < 4294967296) :
    accumulate lens index =
      ((List.range lens.length).map (fun i => u32 (index + prefixSum lens i)),
        u32 (index + lens.sum)) := by
  induction lens generalizing index with
  | nil => simp [accumulate, u32_of_lt h]
  | cons a t ih =>
    simp only [accumulate, ih (u32 (index + a)) (u32_lt _), List.length_cons,
      List.range_succ_eq_map, List.map_cons, List.map_map, prefixSum_zero, Nat.add_zero,
      u32_of_lt h, List.sum_cons, u32_add_u32_left]
    refine Prod.ext ?_ ?_
    · simp only [List.cons.injEq, true_and]
      apply List.map_congr_left
      intro i _
      simp [prefixSum_cons_succ, Nat.add_assoc]
    · simp [Nat.add_assoc]

/-- In a concatenation, the slice between two consecutive prefix sums of the lengths is the
corresponding piece. -/
theorem slice_flatten {α : Type} (L : List (List α)) (p : Nat) (h : p < L.length) :
    slice L.flatten (prefixSum (L.map List.length) p) (prefixSum (L.map List.length) (p + 1))
      = L[p] := by
  induction L generalizing p with
  | nil => simp at h
  | cons a t ih =>
    cases p with
    | zero => simp [slice, prefixSum]
    | succ p =>
      have hp : p < t.length := by simpa using h
      have := ih p hp
      simp only [List.map_cons, prefixSum_cons_succ, List.flatten_cons, List.getElem_cons_succ]
      unfold slice at this ⊢
      rw [List.drop_append_eq_append_drop]
      have h1 : a.length + prefixSum (List.map List.length t) p - a.length
          = prefixSum (List.map List.length t) p := by omega
      have h2 : a.length + prefixSum (List.map List.length t) (p + 1) -
          (a.length + prefixSum (List.map List.length t) p)
          = prefixSum (List.map List.length t) (p + 1) - prefixSum (List.map List.length t) p := by
        omega
      rw [List.drop_of_length_le (by omega), h1, h2]
      simpa using this

theorem counts_length (file : DeepScanLineInputFile) :
    file.counts.length = file.width * file.height := by
  simp [DeepScanLineInputFile.counts]

/-- With enough fuel the second scanning loop returns. -/
theorem indexNamesLoop_returns (names : List Nat) (fuel index : Nat) (acc : List Nat)
    (h : names.length - index + 1 ≤ fuel) :
    ∃ idx, indexNamesLoop names fuel index acc = .ok idx := by
  induction fuel generalizing index acc with
  | zero => omega
  | succ fuel ih =>
    unfold indexNamesLoop
    by_cases hlt : index < names.length
    · rw [if_pos hlt]
      exact ih _ _ (by omega)
    · rw [if_neg hlt]
      exact ⟨acc, rfl⟩

/-- The first scanning loop counts what the second one pushes. -/
theorem countNamesLoop_eq_length (names : List Nat) (fuel index : Nat) (acc idx : List Nat)
    (h : indexNamesLoop names fuel index acc = .ok idx) :
    countNamesLoop names fuel index acc.length = .ok idx.length := by
  induction fuel generalizing index acc with
  | zero => simp [indexNamesLoop] at h
  | succ fuel ih =>
    unfold indexNamesLoop at h
    unfold countNamesLoop
    by_cases hlt : index < names.length
    · rw [if_pos hlt] at h ⊢
      have := ih _ _ h
      simpa using this
    · rw [if_neg hlt] at h ⊢
      cases h
      rfl

/-- The name scan of the file constructor always returns: both loops end and the assertion
holds. -/
theorem parseNames_returns (names : List Nat) :
    ∃ idx, parseNames names = .ok idx ∧
      indexNamesLoop names (names.length + 1) 0 [] = .ok idx := by
  obtain ⟨idx, hidx⟩ := indexNamesLoop_returns names (names.length + 1) 0 [] (by omega)
  have hcount := countNamesLoop_eq_length names _ _ _ _ hidx
  refine ⟨idx, ?_, hidx⟩
  simp only [List.length_nil] at hcount
  simp [parseNames, hcount, hidx]

/-! ## The file constructor in closed form -/

theorem prefixSum_append_le (l r : List Nat) (i : Nat) (h : i ≤ l.length) :
    prefixSum (l ++ r) i = prefixSum l i := by
  unfold prefixSum
  rw [List.take_append_eq_append_take, show i - l.length = 0 by omega]
  simp

theorem countPhase_eq (file : DeepScanLineInputFile) :
    countPhase file =
      ((List.range (file.width * file.height + 1)).map
          (fun i => u32 (prefixSum file.counts i)),
        u32 file.counts.sum) := by
  have hread : readPixelSampleCounts file (List.replicate (file.width * file.height + 1) 0)
      = file.counts ++ [0] := by
    simp [readPixelSampleCounts, DeepScanLineInputFile.counts]
  unfold countPhase
  rw [hread, accumulate_eq _ 0 (by decide)]
  refine Prod.ext ?_ ?_
  · simp only [List.length_append, counts_length, List.length_singleton, Nat.zero_add]
    apply List.map_congr_left
    intro i hi
    rw [prefixSum_append_le _ _ _ (by rw [counts_length]; simp at hi; omega)]
  · simp

theorem map_u32_prefixSum (lens : List Nat) (n : Nat) (h : lens.sum < 4294967296) :
    (List.range n).map (fun i => u32 (prefixSum lens i))
      = (List.range n).map (fun i => prefixSum lens i) := by
  apply List.map_congr_left
  intro i _
  exact u32_of_lt (Nat.lt_of_le_of_lt (prefixSum_le_sum _ _) h)

theorem nameOf_of_mem (m : NameMap) (hnd : (m.map Prod.snd).Nodup) (kv : List Nat × Nat)
    (hkv : kv ∈ m) : nameOf m kv.2 = kv.1 := by
  induction m with
  | nil => simp at hkv
  | cons e t ih =>
    rw [List.map_cons, List.nodup_cons] at hnd
    unfold nameOf
    rw [List.find?_cons]
    by_cases he : e.2 = kv.2
    · have hb : (e.2 == kv.2) = true := by simp [he]
      rw [hb]
      rcases List.mem_cons.mp hkv with h | h
      · rw [h]
      · exfalso
        apply hnd.1
        rw [he]
        exact List.mem_map_of_mem Prod.snd h
    · have hb : (e.2 == kv.2) = false := by simp [he]
      rw [hb]
      rcases List.mem_cons.mp hkv with h | h
      · exact absurd (by rw [h]) he
      · have := ih hnd.2 h
        unfold nameOf at this
        exact this

theorem fillNameSizes_length (es : NameMap) (idx sizes : List Nat)
    (h : fillNameSizes es idx = .ok sizes) : sizes.length = idx.length := by
  induction es generalizing idx with
  | nil => simp [fillNameSizes] at h; rw [← h]
  | cons kv rest ih =>
    unfold fillNameSizes at h
    by_cases hlt : kv.2 < idx.length
    · rw [if_pos hlt] at h
      have := ih _ h
      simpa using this
    · rw [if_neg hlt] at h
      cases h

/-- The first loop, on distinct identifiers inside `_NamesIndexes`: the slot of each identifier
holds the encoded size of its name, the other slots are unchanged. -/
theorem fillNameSizes_spec (es : NameMap) (idx : List Nat)
    (hnd : (es.map Prod.snd).Nodup) (hlt : ∀ kv ∈ es, kv.2 < idx.length) :
    ∃ sizes, fillNameSizes es idx = .ok sizes ∧
      (∀ kv ∈ es, sizes[kv.2]? = some (u32 (u32 kv.1.length + 1))) ∧
      (∀ j, (∀ kv ∈ es, kv.2 ≠ j) → sizes[j]? = idx[j]?) := by
  induction es generalizing idx with
  | nil => exact ⟨idx, rfl, by simp, by simp⟩
  | cons e t ih =>
    rw [List.map_cons, List.nodup_cons] at hnd
    have he := hlt e (List.mem_cons_self _ _)
    obtain ⟨sizes, hs, h1, h2⟩ := ih (idx.set e.2 (u32 (u32 e.1.length + 1))) hnd.2
      (by intro kv hkv; simpa using hlt kv (List.mem_cons_of_mem _ hkv))
    refine ⟨sizes, by simp [fillNameSizes, he, hs], ?_, ?_⟩
    · intro kv hkv
      rcases List.mem_cons.mp hkv with h | h
      · subst h
        rw [h2 kv.2 (by
          intro kv' hkv' heq
          exact hnd.1 (by rw [← heq]; exact List.mem_map_of_mem Prod.snd hkv'))]
        simp [List.getElem?_set, he]
      · exact h1 kv h
    · intro j hj
      rw [h2 j (fun kv hkv => hj kv (List.mem_cons_of_mem _ hkv))]
      have hne : e.2 ≠ j := hj e (List.mem_cons_self _ _)
      simp [List.getElem?_set, hne]

theorem Dense.nodup {m : NameMap} (h : Dense m) : (m.map Prod.snd).Nodup :=
  (List.Perm.nodup_iff h).mpr (List.nodup_range _)

theorem Dense.lt {m : NameMap} (h : Dense m) (kv : List Nat × Nat) (hkv : kv ∈ m) :
    kv.2 < m.length := by
  have := (List.Perm.mem_iff h).mp (List.mem_map_of_mem Prod.snd hkv)
  simpa using this

theorem Dense.exists_mem {m : NameMap} (h : Dense m) (j : Nat) (hj : j < m.length) :
    ∃ kv ∈ m, kv.2 = j := by
  have := (List.Perm.mem_iff h).mpr (List.mem_range.mpr hj)
  obtain ⟨kv, hkv, heq⟩ := List.mem_map.mp this
  exact ⟨kv, hkv, heq⟩

theorem namesById_length (m : NameMap) : (namesById m).length = m.length := by
  simp [namesById]

theorem encodedSizes_length (L : List (List Nat)) : (encodedSizes L).length = L.length := by
  simp [encodedSizes]

/-- The encoded sizes summed over the identifiers or over the entries of the map. -/
theorem encodedSizes_sum {m : NameMap} (h : Dense m) :
    (encodedSizes (namesById m)).sum = (m.map (fun kv => kv.1.length + 1)).sum := by
  have hperm := List.Perm.map (fun id => (nameOf m id).length + 1) h
  have hsum := List.Perm.sum_eq hperm
  have hleft : List.map (fun id => (nameOf m id).length + 1) (List.map Prod.snd m)
      = m.map (fun kv => kv.1.length + 1) := by
    rw [List.map_map]
    apply List.map_congr_left
    intro kv hkv
    simp [nameOf_of_mem m h.nodup kv hkv]
  rw [hleft] at hsum
  rw [hsum]
  simp [encodedSizes, namesById, List.map_map, Function.comp_def]

theorem length_le_sum_of_mem (m : NameMap) (kv : List Nat × Nat) (hkv : kv ∈ m) :
    kv.1.length + 1 ≤ (m.map (fun kv => kv.1.length + 1)).sum := by
  induction m with
  | nil => simp at hkv
  | cons e t ih =>
    rcases List.mem_cons.mp hkv with h | h
    · subst h; simp
    · have := ih h
      simp only [List.map_cons, List.sum_cons]
      omega

/-- Under density and below 2^32 the first loop leaves the encoded sizes in identifier order. -/
theorem fillNameSizes_dense {m : NameMap} (h : Dense m)
    (htotal : (m.map (fun kv => kv.1.length + 1)).sum < 4294967296) :
    fillNameSizes m (List.replicate m.length 0) = .ok (encodedSizes (namesById m)) := by
  obtain ⟨sizes, hs, h1, _⟩ := fillNameSizes_spec m (List.replicate m.length 0) h.nodup
    (by intro kv hkv; simpa using h.lt kv hkv)
  rw [hs]
  congr 1
  have hlen : sizes.length = m.length := by
    simpa using fillNameSizes_length _ _ _ hs
  apply List.ext_getElem?
  intro j
  by_cases hj : j < m.length
  · obtain ⟨kv, hkv, rfl⟩ := h.exists_mem j hj
    have hle := length_le_sum_of_mem m kv hkv
    rw [h1 kv hkv, u32_of_lt (show kv.1.length < 4294967296 by omega),
      u32_of_lt (show kv.1.length + 1 < 4294967296 by omega)]
    simp only [encodedSizes, namesById, List.map_map, List.getElem?_map]
    rw [List.getElem?_range hj]
    simp [nameOf_of_mem m h.nodup kv hkv]
  · rw [List.getElem?_eq_none (by omega),
      List.getElem?_eq_none (by rw [encodedSizes_length, namesById_length]; omega)]

/-! ### The layout of a buffer of zero-terminated strings -/

theorem zeroTerminated_length (L : List (List Nat)) :
    (zeroTerminated L).length = (encodedSizes L).sum := by
  simp [zeroTerminated, encodedSizes, List.map_map, Function.comp_def]

theorem getElem?_of_slice {α : Type} (xs X : List α) (a b : Nat) (h : slice xs a b = X)
    (k : Nat) (hk : k < X.length) : xs[a + k]? = X[k]? := by
  subst h
  unfold slice at hk ⊢
  have hkb : k < b - a := by
    have := List.length_take_le (b - a) (xs.drop a)
    omega
  rw [List.getElem?_take, if_pos hkb, List.getElem?_drop]

/-- Byte `k` of the string `i` (or its terminator) sits at the `i`-th prefix sum plus `k`. -/
theorem zeroTerminated_getElem? (L : List (List Nat)) (i : Nat) (hi : i < L.length) (k : Nat)
    (hk : k ≤ L[i].length) :
    (zeroTerminated L)[prefixSum (encodedSizes L) i + k]? = (L[i] ++ [0])[k]? := by
  have hs := slice_flatten (L.map (fun s => s ++ [0])) i (by simpa using hi)
  have hmap : (L.map (fun s => s ++ [0])).map List.length = encodedSizes L := by
    simp [encodedSizes, List.map_map, Function.comp_def]
  rw [hmap] at hs
  have := getElem?_of_slice _ _ _ _ hs k (by simp; omega)
  simpa [zeroTerminated] using this

/-- Every position below the sum of `lens` lies in exactly one interval of the prefix sums. -/
theorem exists_interval (lens : List Nat) (q : Nat) (hq : q < lens.sum) :
    ∃ i, i < lens.length ∧ prefixSum lens i ≤ q ∧ q < prefixSum lens (i + 1) := by
  induction lens generalizing q with
  | nil => simp at hq
  | cons a t ih =>
    by_cases hqa : q < a
    · exact ⟨0, by simp, by simp [prefixSum], by simpa [prefixSum] using hqa⟩
    · obtain ⟨i, hi, h1, h2⟩ := ih (q - a) (by simp at hq; omega)
      refine ⟨i + 1, by simpa using hi, ?_, ?_⟩
      · rw [prefixSum_cons_succ]; omega
      · rw [prefixSum_cons_succ]; omega

theorem prefixSum_succ_le_sum (lens : List Nat) (i : Nat) (hi : i < lens.length) :
    prefixSum lens i + lens[i] ≤ lens.sum := by
  rw [← prefixSum_succ lens i hi]
  exact prefixSum_le_sum lens (i + 1)

/-! ### The copy loop -/

theorem copyAt_getElem? (dst src : List Nat) (pos : Nat) (h : pos + src.length ≤ dst.length)
    (q : Nat) :
    (dst.take pos ++ src ++ dst.drop (pos + src.length))[q]? =
      if pos ≤ q ∧ q < pos + src.length then src[q - pos]? else dst[q]? := by
  have htl : (dst.take pos).length = pos := by rw [List.length_take]; omega
  by_cases h1 : q < pos
  · rw [if_neg (by omega), List.append_assoc, List.getElem?_append_left (by omega),
      List.getElem?_take, if_pos h1]
  · by_cases h2 : q < pos + src.length
    · rw [if_pos ⟨by omega, h2⟩, List.append_assoc, List.getElem?_append_right (by omega),
        htl, List.getElem?_append_left (by omega)]
    · rw [if_neg (by omega), List.getElem?_append_right (by simp; omega),
        List.getElem?_drop]
      congr 1
      simp only [List.length_append, htl]
      omega

/-- The copy loop ends on the buffer `S` when every name is found in `S` at its offset and the
buffer agrees with `S` outside the places of the names still to copy. -/
theorem copyNames_spec (S O : List Nat) (es : NameMap) (b : List Nat)
    (hO : ∀ kv ∈ es, ∃ pos, O[kv.2]? = some pos ∧ pos + kv.1.length ≤ S.length ∧
      ∀ k, k < kv.1.length → S[pos + k]? = kv.1[k]?)
    (hlen : b.length = S.length)
    (hb : ∀ q, q < S.length →
      (∀ kv ∈ es, ∀ pos, O[kv.2]? = some pos → ¬ (pos ≤ q ∧ q < pos + kv.1.length)) →
      b[q]? = S[q]?) :
    copyNames es O b = .ok S := by
  induction es generalizing b with
  | nil =>
    simp only [copyNames]
    congr 1
    apply List.ext_getElem?
    intro q
    by_cases hq : q < S.length
    · exact hb q hq (by simp)
    · rw [List.getElem?_eq_none (by omega), List.getElem?_eq_none (by omega)]
  | cons e t ih =>
    obtain ⟨pos, hpos, hfit, hS⟩ := hO e (List.mem_cons_self _ _)
    have hcopy : copyAt b pos e.1
        = .ok (b.take pos ++ e.1 ++ b.drop (pos + e.1.length)) := by
      unfold copyAt
      rw [if_pos (by omega)]
    simp only [copyNames, hpos, hcopy]
    apply ih
    · intro kv hkv
      exact hO kv (List.mem_cons_of_mem _ hkv)
    · simp only [List.length_append, List.length_take, List.length_drop]
      omega
    · intro q hq hout
      rw [copyAt_getElem? b e.1 pos (by omega) q]
      by_cases hin : pos ≤ q ∧ q < pos + e.1.length
      · rw [if_pos hin]
        have := hS (q - pos) (by omega)
        rw [show pos + (q - pos) = q by omega] at this
        exact this.symm
      · rw [if_neg hin]
        apply hb q hq
        intro kv hkv p hp
        rcases List.mem_cons.mp hkv with h | h
        · subst h
          rw [hpos] at hp
          cases hp
          exact hin
        · exact hout kv h p hp

/-- The name table the in-memory constructor builds from a dense map of total encoded size below
2^32: the names in identifier order, each followed by a zero byte, and the prefix sums of the
encoded sizes. -/
theorem buildNames_eq {m : NameMap} (h : Dense m)
    (htotal : (m.map (fun kv => kv.1.length + 1)).sum < 4294967296) :
    buildNames m =
      .ok (zeroTerminated (namesById m),
        (List.range m.length).map (fun id => prefixSum (encodedSizes (namesById m)) id)) := by
  have hsum := encodedSizes_sum h
  have hlt : (encodedSizes (namesById m)).sum < 4294967296 := by omega
  have hacc := accumulate_eq (encodedSizes (namesById m)) 0 (by decide)
  simp only [Nat.zero_add, map_u32_prefixSum _ _ hlt, u32_of_lt hlt, encodedSizes_length,
    namesById_length] at hacc
  have hcopy := copyNames_spec (zeroTerminated (namesById m))
    ((List.range m.length).map (fun id => prefixSum (encodedSizes (namesById m)) id)) m
    (List.replicate (encodedSizes (namesById m)).sum 0)
    (by
      intro kv hkv
      have hid := h.lt kv hkv
      have hbn : kv.2 < (namesById m).length := by rw [namesById_length]; exact hid
      have hbe : kv.2 < (encodedSizes (namesById m)).length := by
        rw [encodedSizes_length]; exact hbn
      have hname : (namesById m)[kv.2] = kv.1 := by
        simp [namesById, nameOf_of_mem m h.nodup kv hkv]
      refine ⟨prefixSum (encodedSizes (namesById m)) kv.2, ?_, ?_, ?_⟩
      · rw [List.getElem?_map, List.getElem?_range hid]; rfl
      · have := prefixSum_succ_le_sum (encodedSizes (namesById m)) kv.2
          (by rw [encodedSizes_length, namesById_length]; exact hid)
        rw [zeroTerminated_length]
        have he : (encodedSizes (namesById m))[kv.2] = kv.1.length + 1 := by
          simp [encodedSizes, hname]
        omega
      · intro k hk
        rw [zeroTerminated_getElem? (namesById m) kv.2
          (by rw [namesById_length]; exact hid) k (by rw [hname]; omega), hname,
          List.getElem?_append_left hk])
    (by simp [zeroTerminated_length])
    (by
      intro q hq hout
      rw [zeroTerminated_length] at hq
      obtain ⟨i, hi, h1, h2⟩ := exists_interval _ q hq
      rw [encodedSizes_length, namesById_length] at hi
      obtain ⟨kv, hkv, rfl⟩ := h.exists_mem i hi
      have hbn : kv.2 < (namesById m).length := by rw [namesById_length]; exact hi
      have hbe : kv.2 < (encodedSizes (namesById m)).length := by
        rw [encodedSizes_length]; exact hbn
      have hname : (namesById m)[kv.2] = kv.1 := by
        simp [namesById, nameOf_of_mem m h.nodup kv hkv]
      have hnot := hout kv hkv (prefixSum (encodedSizes (namesById m)) kv.2)
        (by rw [List.getElem?_map, List.getElem?_range hi]; rfl)
      rw [prefixSum_succ _ _ (by rw [encodedSizes_length, namesById_length]; exact hi)] at h2
      have he : (encodedSizes (namesById m))[kv.2] = kv.1.length + 1 := by
        simp [encodedSizes, hname]
      rw [he] at h2
      have hk : q = prefixSum (encodedSizes (namesById m)) kv.2 + kv.1.length := by omega
      rw [List.getElem?_replicate, if_pos hq, hk,
        zeroTerminated_getElem? (namesById m) kv.2 (by rw [namesById_length]; exact hi)
          kv.1.length (by rw [hname]), hname]
      simp)
  simp only [buildNames, fillNameSizes_dense h htotal, hacc, hcopy]

/-! ## Lemmas on scanning a buffer of zero-terminated strings -/

theorem takeWhile_nonzero_append (w rest : List Nat) (hw : ∀ c ∈ w, c ≠ 0) :
    (w ++ 0 :: rest).takeWhile (fun c => c != 0) = w := by
  induction w with
  | nil => simp
  | cons a t ih =>
    have ha : a ≠ 0 := hw a (List.mem_cons_self _ _)
    have := ih (fun c hc => hw c (List.mem_cons_of_mem _ hc))
    simp [List.takeWhile_cons, ha, this]

theorem strnlen_at (pre w rest : List Nat) (hw : ∀ c ∈ w, c ≠ 0) :
    strnlen (pre ++ (w ++ 0 :: rest)) pre.length
        ((pre ++ (w ++ 0 :: rest)).length - pre.length) = w.length := by
  unfold strnlen
  rw [List.drop_left, List.length_append, Nat.add_sub_cancel_left, List.take_length,
    takeWhile_nonzero_append w rest hw]

theorem zeroTerminated_cons (w : List Nat) (t : List (List Nat)) :
    zeroTerminated (w :: t) = w ++ 0 :: zeroTerminated t := by
  simp [zeroTerminated]

/-- The second scanning loop on strings without zero byte, each followed by one zero byte:
the offsets pushed are the prefix sums of the encoded sizes. -/
theorem indexNamesLoop_zeroTerminated (L : List (List Nat)) (pre acc : List Nat) (fuel : Nat)
    (hz : ∀ s ∈ L, ∀ c ∈ s, c ≠ 0) (hfuel : L.length + 1 ≤ fuel) :
    indexNamesLoop (pre ++ zeroTerminated L) fuel pre.length acc =
      .ok (acc ++ (List.range L.length).map
        (fun i => u32 (pre.length + prefixSum (encodedSizes L) i))) := by
  induction L generalizing pre acc fuel with
  | nil =>
    obtain ⟨f, rfl⟩ : ∃ f, fuel = f + 1 := ⟨fuel - 1, by simp at hfuel; omega⟩
    simp [indexNamesLoop, zeroTerminated]
  | cons w t ih =>
    obtain ⟨f, rfl⟩ : ∃ f, fuel = f + 1 := ⟨fuel - 1, by omega⟩
    have hw : ∀ c ∈ w, c ≠ 0 := hz w (List.mem_cons_self _ _)
    have hlt : pre.length < (pre ++ (w ++ 0 :: zeroTerminated t)).length := by
      simp
    rw [zeroTerminated_cons, indexNamesLoop, if_pos hlt, strnlen_at pre w _ hw]
    have hpre : pre ++ (w ++ 0 :: zeroTerminated t) = (pre ++ w ++ [0]) ++ zeroTerminated t := by
      simp
    have hidx : pre.length + w.length + 1 = (pre ++ w ++ [0]).length := by simp; omega
    rw [hpre, hidx, ih (pre ++ w ++ [0]) _ f (fun s hs => hz s (List.mem_cons_of_mem _ hs))
      (by simp at hfuel; omega)]
    congr 1
    simp only [List.length_cons, List.range_succ_eq_map, List.map_cons, List.map_map,
      prefixSum_zero, Nat.add_zero, List.append_assoc, List.singleton_append]
    congr 2
    apply List.map_congr_left
    intro i _
    simp only [Function.comp_apply, encodedSizes, List.map_cons, prefixSum_cons_succ,
      List.length_append, List.length_singleton]
    congr 1
    omega

theorem length_le_encodedSizes_sum (L : List (List Nat)) :
    L.length ≤ (encodedSizes L).sum := by
  induction L with
  | nil => simp [encodedSizes]
  | cons w t ih =>
    simp only [encodedSizes, List.map_cons, List.sum_cons, List.length_cons] at ih ⊢
    omega

/-- The file constructor's name scan of a buffer of zero-terminated strings (no zero byte inside
a string, less than 2^32 bytes in all) returns the prefix sums of the encoded sizes. -/
theorem parseNames_zeroTerminated (L : List (List Nat)) (hz : ∀ s ∈ L, ∀ c ∈ s, c ≠ 0)
    (htotal : (encodedSizes L).sum < 4294967296) :
    parseNames (zeroTerminated L) =
      .ok ((List.range L.length).map (fun i => prefixSum (encodedSizes L) i)) := by
  obtain ⟨idx, hparse, hloop⟩ := parseNames_returns (zeroTerminated L)
  have h := indexNamesLoop_zeroTerminated L [] [] ((zeroTerminated L).length + 1) hz
    (by rw [zeroTerminated_length]; have := length_le_encodedSizes_sum L; omega)
  simp only [List.nil_append, List.length_nil, Nat.zero_add] at h
  rw [hloop, map_u32_prefixSum _ _ htotal] at h
  rw [hparse, h]

/-- The zero-terminated string found at the `i`-th prefix sum is the `i`-th string. -/
theorem cstringAt_zeroTerminated (L : List (List Nat)) (i : Nat) (hi : i < L.length)
    (hz : ∀ c ∈ L[i], c ≠ 0) :
    cstringAt (zeroTerminated L) (prefixSum (encodedSizes L) i) = L[i] := by
  induction L generalizing i with
  | nil => simp at hi
  | cons w t ih =>
    cases i with
    | zero =>
      simp only [List.getElem_cons_zero] at hz
      simp only [prefixSum_zero, cstringAt, List.drop_zero, zeroTerminated_cons,
        List.getElem_cons_zero]
      exact takeWhile_nonzero_append w _ hz
    | succ i =>
      have hi' : i < t.length := by simpa using hi
      have := ih i hi' (by simpa using hz)
      simp only [encodedSizes, List.map_cons, prefixSum_cons_succ, zeroTerminated_cons,
        List.getElem_cons_succ] at this ⊢
      unfold cstringAt at this ⊢
      have hsplit : w ++ 0 :: zeroTerminated t = (w ++ [0]) ++ zeroTerminated t := by simp
      rw [hsplit, List.drop_append_eq_append_drop, List.drop_of_length_le (by simp)]
      simp only [List.length_append, List.length_singleton, List.nil_append]
      rw [show w.length + 1 + prefixSum (List.map (fun s => s.length + 1) t) i - (w.length + 1)
        = prefixSum (List.map (fun s => s.length + 1) t) i by omega]
      exact this

/-! ## Lemmas on the failures of the name table build -/

theorem CSR.getElem? {n : Nat} {m : Mask} (h : CSR n m._PixelsIndexes m._Samples) (q : Nat)
    (hq : q ≤ n) : m._PixelsIndexes[q]? = some (m.offset q) := by
  have hlt : q < m._PixelsIndexes.length := by rw [h.1]; omega
  rw [Mask.offset, List.getD_eq_getElem?_getD, List.getElem?_eq_getElem hlt]
  rfl

theorem CSR.offset_last {n : Nat} {m : Mask} (h : CSR n m._PixelsIndexes m._Samples) :
    m.offset n = m._Samples.length := by
  have := h.getElem? n (Nat.le_refl _)
  rw [h.2.2.2] at this
  exact (Option.some.inj this).symm

theorem CSR.offset_mono {n : Nat} {m : Mask} (h : CSR n m._PixelsIndexes m._Samples) (q : Nat)
    (hq : q < n) : m.offset q ≤ m.offset (q + 1) :=
  h.2.2.1 q hq

theorem CSR.offset_le_aux {n : Nat} {m : Mask} (h : CSR n m._PixelsIndexes m._Samples)
    (d q : Nat) (hq : q + d = n) : m.offset q ≤ m._Samples.length := by
  induction d generalizing q with
  | zero =>
    rw [Nat.add_zero] at hq
    rw [hq, h.offset_last]
  | succ d ih =>
    have h1 := h.offset_mono q (by omega)
    have h2 := ih (q + 1) (by omega)
    omega

theorem CSR.offset_le {n : Nat} {m : Mask} (h : CSR n m._PixelsIndexes m._Samples) (q : Nat)
    (hq : q ≤ n) : m.offset q ≤ m._Samples.length :=
  h.offset_le_aux (n - q) q (by omega)

theorem sub32_of_le {a b : Nat} (hab : a ≤ b) (hb : b < 4294967296) : sub32 b a = b - a := by
  unfold sub32 u32
  omega

/-- The line buffers `Mask::write` sets for `w` pixels from the linear index `i`. -/
theorem setLine_eq {n : Nat} {m : Mask} (h : CSR n m._PixelsIndexes m._Samples)
    (h32 : m._Samples.length < 4294967296) (w i : Nat) (hi : i + w ≤ n) :
    setLine m._PixelsIndexes w i =
      .ok ((List.range' i w).map (fun q =>
        { sampleCount := m.offset (q + 1) - m.offset q, id := m.offset q,
          coverage := m.offset q })) := by
  induction w generalizing i with
  | zero => simp [setLine]
  | succ w ih =>
    have hsub := sub32_of_le (h.offset_mono i (by omega))
      (Nat.lt_of_le_of_lt (h.offset_le (i + 1) (by omega)) h32)
    simp only [setLine, h.getElem? (i + 1) (by omega), h.getElem? i (by omega),
      ih (i + 1) (by omega), hsub, List.range'_succ, List.map_cons]

theorem readRun_eq (samples : List Sample) (member : Sample → Nat) (cursor k : Nat)
    (h : cursor + k ≤ samples.length) :
    readRun samples member cursor k = .ok (((samples.drop cursor).take k).map member) := by
  unfold readRun
  by_cases hk : k = 0
  · rw [if_pos hk, hk]; simp
  · rw [if_neg hk, if_pos h]

/-- What `writePixels` reads for `w` pixels from the linear index `i`. -/
theorem writePixels_eq {n : Nat} {m : Mask} (h : CSR n m._PixelsIndexes m._Samples)
    (w i : Nat) (hi : i + w ≤ n) :
    writePixels m._Samples ((List.range' i w).map (fun q =>
        ({ sampleCount := m.offset (q + 1) - m.offset q, id := m.offset q,
           coverage := m.offset q } : LineEntry))) =
      .ok ((List.range' i w).map m.view) := by
  induction w generalizing i with
  | zero => simp [writePixels]
  | succ w ih =>
    have hfit : m.offset i + (m.offset (i + 1) - m.offset i) ≤ m._Samples.length := by
      have h1 := h.offset_mono i (by omega)
      have h2 := h.offset_le (i + 1) (by omega)
      omega
    simp only [List.range'_succ, List.map_cons, writePixels, readRun_eq _ _ _ _ hfit,
      ih (i + 1) (by omega)]
    rfl

/-- The scan lines `Mask::write` hands over hold the views of the pixels in scan order. -/
theorem writeLoop_eq {n : Nat} {m : Mask} (h : CSR n m._PixelsIndexes m._Samples)
    (h32 : m._Samples.length < 4294967296) (rows i : Nat)
    (hi : i + rows * m._Width.toNat ≤ n) :
    ∃ lines, writeLoop m rows i = .ok lines ∧
      lines.flatten = (List.range' i (rows * m._Width.toNat)).map m.view := by
  induction rows generalizing i with
  | zero => exact ⟨[], by simp [writeLoop], by simp⟩
  | succ rows ih =>
    have hmul : (rows + 1) * m._Width.toNat = rows * m._Width.toNat + m._Width.toNat :=
      Nat.succ_mul _ _
    obtain ⟨lines, hl, hflat⟩ := ih (i + m._Width.toNat) (by omega)
    refine ⟨(List.range' i m._Width.toNat).map m.view :: lines, by
      simp only [writeLoop, setLine_eq h h32 m._Width.toNat i (by omega),
        writePixels_eq h m._Width.toNat i (by omega), hl], ?_⟩
    rw [List.flatten_cons, hflat, ← List.map_append, List.range'_append_1, hmul]

theorem write_eq {n : Nat} {m : Mask} (h : CSR n m._PixelsIndexes m._Samples)
    (h32 : m._Samples.length < 4294967296) (hn : m._Height.toNat * m._Width.toNat = n) :
    ∃ out, m.write = .ok out ∧ out.width = m._Width ∧ out.height = m._Height ∧
      out.names = m._Names ∧ out.scanLines.flatten = (List.range n).map m.view := by
  obtain ⟨lines, hl, hflat⟩ := writeLoop_eq h h32 m._Height.toNat 0 (by omega)
  refine ⟨{ width := m._Width, height := m._Height, names := m._Names, scanLines := lines },
    by simp only [Mask.write, hl], rfl, rfl, rfl, ?_⟩
  simp only
  rw [hflat, hn, List.range_eq_range']

/-! ## Lemmas on reading back what `Mask::write` wrote -/

theorem setLine_spec (pixelsIndexes : List Nat) (w i : Nat) (entries : List LineEntry)
    (h : setLine pixelsIndexes w i = .ok entries) :
    entries.length = w ∧ ∀ x, x < w → ∃ a b, pixelsIndexes[i + x]? = some a ∧
      pixelsIndexes[i + x + 1]? = some b ∧
      entries[x]? = some { sampleCount := sub32 b a, id := a, coverage := a } := by
  induction w generalizing i entries with
  | zero =>
    simp only [setLine, Except.ok.injEq] at h
    subst h
    exact ⟨rfl, fun x hx => absurd hx (Nat.not_lt_zero x)⟩
  | succ w ih =>
    unfold setLine at h
    cases hb : pixelsIndexes[i + 1]? with
    | none => simp [hb] at h
    | some b =>
      cases ha : pixelsIndexes[i]? with
      | none => simp [hb, ha] at h
      | some a =>
        cases hrest : setLine pixelsIndexes w (i + 1) with
        | error e => simp [hb, ha, hrest] at h
        | ok rest =>
          simp only [hb, ha, hrest, Except.ok.injEq] at h
          subst h
          obtain ⟨hlen, hall⟩ := ih (i + 1) rest hrest
          refine ⟨by simp [hlen], ?_⟩
          intro x hx
          cases x with
          | zero => exact ⟨a, b, by simpa using ha, by simpa using hb, by simp⟩
          | succ x =>
            obtain ⟨a1, b1, h1, h2, h3⟩ := hall x (by omega)
            refine ⟨a1, b1, ?_, ?_, by simpa using h3⟩
            · rw [show i + (x + 1) = i + 1 + x by omega]; exact h1
            · rw [show i + (x + 1) + 1 = i + 1 + x + 1 by omega]; exact h2

theorem readRun_spec (samples : List Sample) (member : Sample → Nat) (cursor n : Nat)
    (vs : List Nat) (h : readRun samples member cursor n = .ok vs) :
    vs.length = n ∧ ∀ k, k < n → ∃ s, samples[cursor + k]? = some s ∧
      vs[k]? = some (member s) := by
  unfold readRun at h
  by_cases hn : n = 0
  · rw [if_pos hn] at h
    cases h
    subst hn
    exact ⟨rfl, fun k hk => absurd hk (Nat.not_lt_zero k)⟩
  · rw [if_neg hn] at h
    by_cases hfit : cursor + n ≤ samples.length
    · rw [if_pos hfit] at h
      cases h
      refine ⟨by simp; omega, ?_⟩
      intro k hk
      have hlt : cursor + k < samples.length := by omega
      refine ⟨samples[cursor + k], List.getElem?_eq_getElem hlt, ?_⟩
      rw [List.getElem?_map, List.getElem?_take, if_pos hk, List.getElem?_drop,
        List.getElem?_eq_getElem hlt]
      rfl
    · rw [if_neg hfit] at h
      cases h

theorem writePixels_spec (samples : List Sample) (entries : List LineEntry)
    (pixels : List DeepPixel) (h : writePixels samples entries = .ok pixels) :
    pixels.length = entries.length ∧ ∀ (x : Nat) (e : LineEntry), entries[x]? = some e →
      ∃ px, pixels[x]? = some px ∧ px.sampleCount = e.sampleCount ∧
        readRun samples Sample.Id e.id e.sampleCount = .ok px.id ∧
        readRun samples Sample.Coverage e.coverage e.sampleCount = .ok px.coverage := by
  induction entries generalizing pixels with
  | nil =>
    simp only [writePixels, Except.ok.injEq] at h
    subst h
    exact ⟨rfl, by simp⟩
  | cons e rest ih =>
    unfold writePixels at h
    cases hid : readRun samples Sample.Id e.id e.sampleCount with
    | error err => simp [hid] at h
    | ok ids =>
      cases hcov : readRun samples Sample.Coverage e.coverage e.sampleCount with
      | error err => simp [hid, hcov] at h
      | ok coverages =>
        cases hrest : writePixels samples rest with
        | error err => simp [hid, hcov, hrest] at h
        | ok more =>
          simp only [hid, hcov, hrest, Except.ok.injEq] at h
          subst h
          obtain ⟨hlen, hall⟩ := ih more hrest
          refine ⟨by simp [hlen], ?_⟩
          intro x e1 he1
          cases x with
          | zero =>
            simp only [List.getElem?_cons_zero, Option.some.injEq] at he1
            subst he1
            exact ⟨{ sampleCount := e.sampleCount, id := ids, coverage := coverages }, by simp,
              rfl, hid, hcov⟩
          | succ x =>
            rw [List.getElem?_cons_succ] at he1
            obtain ⟨px, h1, h2⟩ := hall x e1 he1
            exact ⟨px, by simpa using h1, h2⟩

theorem writeLoop_spec (m : Mask) (rows i : Nat) (lines : List (List DeepPixel))
    (h : writeLoop m rows i = .ok lines) :
    lines.length = rows ∧ ∀ y, y < rows → ∃ entries pixels,
      setLine m._PixelsIndexes m._Width.toNat (i + y * m._Width.toNat) = .ok entries ∧
      writePixels m._Samples entries = .ok pixels ∧ lines[y]? = some pixels := by
  induction rows generalizing i lines with
  | zero =>
    simp only [writeLoop, Except.ok.injEq] at h
    subst h
    exact ⟨rfl, fun y hy => absurd hy (Nat.not_lt_zero y)⟩
  | succ rows ih =>
    unfold writeLoop at h
    cases hentries : setLine m._PixelsIndexes m._Width.toNat i with
    | error e => simp [hentries] at h
    | ok entries =>
      cases hpix : writePixels m._Samples entries with
      | error e => simp [hentries, hpix] at h
      | ok pixels =>
        cases hrest : writeLoop m rows (i + m._Width.toNat) with
        | error e => simp [hentries, hpix, hrest] at h
        | ok more =>
          simp only [hentries, hpix, hrest, Except.ok.injEq] at h
          subst h
          obtain ⟨hlen, hall⟩ := ih (i + m._Width.toNat) more hrest
          refine ⟨by simp [hlen], ?_⟩
          intro y hy
          cases y with
          | zero => exact ⟨entries, pixels, by simpa using hentries, hpix, by simp⟩
          | succ y =>
            obtain ⟨l1, p1, h1, h2, h3⟩ := hall y (by omega)
            refine ⟨l1, p1, ?_, h2, by simpa using h3⟩
            rw [show i + (y + 1) * m._Width.toNat = i + m._Width.toNat + y * m._Width.toNat by
              rw [Nat.succ_mul]; omega]
            exact h1

/-! ## Lemmas on `Mask::write` for a store whose offsets decrease -/

theorem sub32_of_lt {a b : Nat} (hba : b < a) (ha : a < 4294967296) :
    sub32 b a = b + 4294967296 - a := by
  unfold sub32 u32
  omega

theorem setLine_returns (pixelsIndexes : List Nat) (w i : Nat)
    (h : i + w < pixelsIndexes.length) : ∃ entries, setLine pixelsIndexes w i = .ok entries := by
  induction w generalizing i with
  | zero => exact ⟨[], rfl⟩
  | succ w ih =>
    obtain ⟨rest, hrest⟩ := ih (i + 1) (by omega)
    have ha : pixelsIndexes[i]? = some pixelsIndexes[i] := List.getElem?_eq_getElem (by omega)
    have hb : pixelsIndexes[i + 1]? = some pixelsIndexes[i + 1] :=
      List.getElem?_eq_getElem (by omega)
    exact ⟨{ sampleCount := sub32 pixelsIndexes[i + 1] pixelsIndexes[i],
             id := pixelsIndexes[i], coverage := pixelsIndexes[i] } :: rest,
      by simp only [setLine, ha, hb, hrest]⟩

theorem setLine_error_kind (pixelsIndexes : List Nat) (w i : Nat) (e : Failure)
    (h : setLine pixelsIndexes w i = .error e) : e = .outOfRange := by
  induction w generalizing i with
  | zero => simp [setLine] at h
  | succ w ih =>
    unfold setLine at h
    cases hb : pixelsIndexes[i + 1]? with
    | none => simp only [hb] at h; cases h; rfl
    | some b =>
      cases ha : pixelsIndexes[i]? with
      | none => simp only [hb, ha] at h; cases h; rfl
      | some a =>
        cases hrest : setLine pixelsIndexes w (i + 1) with
        | error e1 =>
          simp only [hb, ha, hrest] at h
          cases h
          exact ih _ hrest
        | ok rest => simp [hb, ha, hrest] at h

theorem readRun_error_kind (samples : List Sample) (member : Sample → Nat) (cursor n : Nat)
    (e : Failure) (h : readRun samples member cursor n = .error e) : e = .outOfRange := by
  unfold readRun at h
  by_cases hn : n = 0
  · rw [if_pos hn] at h; cases h
  · rw [if_neg hn] at h
    by_cases hfit : cursor + n ≤ samples.length
    · rw [if_pos hfit] at h; cases h
    · rw [if_neg hfit] at h; cases h; rfl

theorem writePixels_error_kind (samples : List Sample) (entries : List LineEntry) (e : Failure)
    (h : writePixels samples entries = .error e) : e = .outOfRange := by
  induction entries with
  | nil => simp [writePixels] at h
  | cons en rest ih =>
    unfold writePixels at h
    cases hid : readRun samples Sample.Id en.id en.sampleCount with
    | error err =>
      simp only [hid] at h
      cases h
      exact readRun_error_kind _ _ _ _ _ hid
    | ok ids =>
      cases hcov : readRun samples Sample.Coverage en.coverage en.sampleCount with
      | error err =>
        simp only [hid, hcov] at h
        cases h
        exact readRun_error_kind _ _ _ _ _ hcov
      | ok coverages =>
        cases hrest : writePixels samples rest with
        | error err =>
          simp only [hid, hcov, hrest] at h
          cases h
          exact ih hrest
        | ok more => simp [hid, hcov, hrest] at h

theorem writeLoop_error_kind (m : Mask) (rows i : Nat) (e : Failure)
    (h : writeLoop m rows i = .error e) : e = .outOfRange := by
  induction rows generalizing i with
  | zero => simp [writeLoop] at h
  | succ rows ih =>
    unfold writeLoop at h
    cases hentries : setLine m._PixelsIndexes m._Width.toNat i with
    | error e1 =>
      simp only [hentries] at h
      cases h
      exact setLine_error_kind _ _ _ _ hentries
    | ok entries =>
      cases hpix : writePixels m._Samples entries with
      | error e1 =>
        simp only [hentries, hpix] at h
        cases h
        exact writePixels_error_kind _ _ _ hpix
      | ok pixels =>
        cases hrest : writeLoop m rows (i + m._Width.toNat) with
        | error e1 =>
          simp only [hentries, hpix, hrest] at h
          cases h
          exact ih _ hrest
        | ok more => simp [hentries, hpix, hrest] at h


/-- `Mask::write` on a 1x1 store of 2^32 samples with the offsets `[1, 0]`: the count handed
over is 4294967295. -/
theorem write_one_pixel_wrapped (m : Mask) (hW : m._Width.toNat = 1) (hH : m._Height.toNat = 1)
    (hPI : m._PixelsIndexes = [1, 0]) (hl : m._Samples.length = 4294967296) :
    m.write =
      .ok { width := m._Width, height := m._Height, names := m._Names,
            scanLines := [[(⟨4294967295, ((m._Samples.drop 1).take 4294967295).map Sample.Id,
              ((m._Samples.drop 1).take 4294967295).map Sample.Coverage⟩ : DeepPixel)]] } := by
  have hid := readRun_eq m._Samples Sample.Id 1 4294967295 (by omega)
  have hcov := readRun_eq m._Samples Sample.Coverage 1 4294967295 (by omega)
  have hset : setLine [1, 0] 1 0 = .ok [⟨4294967295, 1, 1⟩] := rfl
  have hwp : writePixels m._Samples [⟨4294967295, 1, 1⟩] =
      .ok [(⟨4294967295, ((m._Samples.drop 1).take 4294967295).map Sample.Id,
        ((m._Samples.drop 1).take 4294967295).map Sample.Coverage⟩ : DeepPixel)] := by
    simp only [writePixels, hid, hcov]
  have hloop0 : ∀ i, writeLoop m 0 i = .ok [] := fun i => rfl
  have hloop : writeLoop m 1 0 =
      .ok [[(⟨4294967295, ((m._Samples.drop 1).take 4294967295).map Sample.Id,
        ((m._Samples.drop 1).take 4294967295).map Sample.Coverage⟩ : DeepPixel)]] := by
    rw [writeLoop, hW, hPI, hset]
    simp only
    rw [hwp]
    simp only
    rw [hloop0]
  rw [Mask.write, hH, hloop]

/-! ## Lemmas on the fuel of the name-scanning loops -/

theorem prefixSum_le_of_le (lens : List Nat) (i d : Nat) :
    prefixSum lens i ≤ prefixSum lens (i + d) := by
  induction d with
  | zero => exact Nat.le_refl _
  | succ d ih =>
    have := prefixSum_mono lens (i + d)
    rw [← Nat.add_assoc]
    omega

theorem prefixSum_lt_of_lt (lens : List Nat) (hpos : ∀ s ∈ lens, 1 ≤ s) (i j : Nat)
    (hij : i < j) (hj : j ≤ lens.length) : prefixSum lens i < prefixSum lens j := by
  obtain ⟨d, rfl⟩ := Nat.exists_eq_add_of_le (show i + 1 ≤ j by omega)
  have hi : i < lens.length := by omega
  have h1 := prefixSum_succ lens i hi
  have h2 := prefixSum_le_of_le lens (i + 1) d
  have h3 := hpos lens[i] (List.getElem_mem hi)
  omega

theorem encodedSizes_pos (L : List (List Nat)) : ∀ s ∈ encodedSizes L, 1 ≤ s := by
  intro s hs
  obtain ⟨w, _, rfl⟩ := List.mem_map.mp hs
  omega

/-- The name table of two names of 4294967295 and 4294967294 bytes: both offsets are 0. -/
theorem buildNames_two_wrapped (A B : List Nat) (hA : A.length = 4294967295)
    (hB : B.length = 4294967294) :
    ∃ names, buildNames [(A, 0), (B, 1)] = .ok (names, [0, 0]) := by
  have hsA : u32 (u32 A.length + 1) = 0 := by rw [hA]; decide
  have hsB : u32 (u32 B.length + 1) = 4294967295 := by rw [hB]; decide
  have hfill : fillNameSizes [(A, 0), (B, 1)] (List.replicate [(A, 0), (B, 1)].length 0)
      = .ok [0, 4294967295] := by
    simp [fillNameSizes, hsA, hsB]
  have hacc : accumulate [0, 4294967295] 0 = ([0, 0], 4294967295) := by decide
  have hcopy : ∀ buf : List Nat, buf.length = 4294967295 →
      ∃ names, copyNames [(A, 0), (B, 1)] [0, 0] buf = .ok names := by
    intro buf hbuf
    have h1 : copyAt buf 0 A = .ok (buf.take 0 ++ A ++ buf.drop (0 + A.length)) := by
      unfold copyAt
      rw [if_pos (by omega)]
    have h2 : ∀ buf1 : List Nat, A.length ≤ buf1.length →
        copyAt buf1 0 B = .ok (buf1.take 0 ++ B ++ buf1.drop (0 + B.length)) := by
      intro buf1 hlen
      unfold copyAt
      rw [if_pos (by omega)]
    refine ⟨(buf.take 0 ++ A ++ buf.drop (0 + A.length)).take 0 ++ B ++
      (buf.take 0 ++ A ++ buf.drop (0 + A.length)).drop (0 + B.length), ?_⟩
    rw [copyNames]
    simp only [List.getElem?_cons_zero]
    rw [h1]
    simp only
    rw [copyNames]
    simp only [List.getElem?_cons_succ, List.getElem?_cons_zero]
    rw [h2 _ (by simp)]
    simp only
    rw [copyNames]
  obtain ⟨names, hn⟩ := hcopy (List.replicate 4294967295 0) (List.length_replicate _ _)
  refine ⟨names, ?_⟩
  rw [buildNames, hfill]
  simp only
  rw [hacc]
  simp only
  rw [hn]

/-! ## Lemmas on the order of the offsets the scan produces -/

/-- C3: in the file constructor, when the sample counts of the `width*height` pixels sum to less
than 2^32, `_PixelsIndexes` holds the counts followed by the untouched slot 0 before the
accumulation loop, and after it `_PixelsIndexes[i]` is the sum of the counts of the pixels before
`i` for every `i` of `0..width*height`; the last entry is the total, and `_Samples` is resized to
exactly that many `{0,0}` entries. -/
theorem countPhase_prefix_sums (file : DeepScanLineInputFile)
    (htotal : file.counts.sum < 4294967296) :
    readPixelSampleCounts file (List.replicate (file.width * file.height + 1) 0)
        = file.counts ++ [0] ∧
      (countPhase file).1.length = file.width * file.height + 1 ∧
      (∀ i, i ≤ file.width * file.height →
        (countPhase file).1[i]? = some (prefixSum file.counts i)) ∧
      (countPhase file).1[file.width * file.height]? = some file.counts.sum ∧
      resizeSamples (countPhase file).2 = List.replicate file.counts.sum ⟨0, 0⟩ := by
  rw [countPhase_eq, map_u32_prefixSum _ _ htotal, u32_of_lt htotal]
  refine ⟨?_, by simp, ?_, ?_, rfl⟩
  · simp [readPixelSampleCounts, DeepScanLineInputFile.counts]
  · intro i hi
    simp only
    rw [List.getElem?_map, List.getElem?_range (by omega)]
    rfl
  · simp only
    rw [List.getElem?_map, List.getElem?_range (by omega)]
    simp only [Option.map_some', Option.some.injEq]
    rw [← counts_length, prefixSum_length]

/-- C3, at a 3x1 file with the counts 2, 0, 3. -/
theorem countPhase_prefix_sums_witness :
    readPixelSampleCounts file203 (List.replicate (file203.width * file203.height + 1) 0)
        = file203.counts ++ [0] ∧
      (countPhase file203).1.length = file203.width * file203.height + 1 ∧
      (∀ i, i ≤ file203.width * file203.height →
        (countPhase file203).1[i]? = some (prefixSum file203.counts i)) ∧
      (countPhase file203).1[file203.width * file203.height]? = some file203.counts.sum ∧
      resizeSamples (countPhase file203).2 = List.replicate file203.counts.sum ⟨0, 0⟩ :=
  countPhase_prefix_sums file203 (by decide)

/-- C4, counterexample: the map `{"a\0b": 0}` maps one name to the identifier 0, yet the buffer
built from it, `a \0 b \0`, is scanned into two identifiers, and the zero-terminated string at
the offset of identifier 0 is `a`, not the name `a\0b`. -/
theorem build_parse_zero_inside :
    Dense zeroInside ∧ zeroInside.length = 1 ∧
      buildNames zeroInside = .ok ([97, 0, 98, 0], [0]) ∧
      parseNames [97, 0, 98, 0] = .ok [0, 2] ∧
      cstringAt [97, 0, 98, 0] 0 = [97] := by
  refine ⟨by decide, rfl, rfl, rfl, rfl⟩

/-- C4, amended: for every mapping from names without a zero byte to the dense identifiers
`0..N-1`, of total encoded size below 2^32, the in-memory constructor builds a names buffer that
the name scan of the file constructor parses into exactly `N` offsets, the same as the built
ones, and for every entry `(name, id)` of the map the zero-terminated string that starts at the
parsed offset of `id` is `name`. -/
theorem build_parse_roundtrip (m : NameMap) (h : Dense m)
    (hz : ∀ kv ∈ m, ∀ c ∈ kv.1, c ≠ 0)
    (htotal : (m.map (fun kv => kv.1.length + 1)).sum < 4294967296) :
    ∃ names offsets idx, buildNames m = .ok (names, offsets) ∧ parseNames names = .ok idx ∧
      idx.length = m.length ∧ idx = offsets ∧
      ∀ kv ∈ m, ∃ off, idx[kv.2]? = some off ∧ cstringAt names off = kv.1 := by
  have hzL : ∀ s ∈ namesById m, ∀ c ∈ s, c ≠ 0 := by
    intro s hs
    obtain ⟨id, hid, rfl⟩ := List.mem_map.mp hs
    obtain ⟨kv, hkv, rfl⟩ := h.exists_mem id (List.mem_range.mp hid)
    rw [nameOf_of_mem m h.nodup kv hkv]
    exact hz kv hkv
  have hparse := parseNames_zeroTerminated (namesById m) hzL
    (by rw [encodedSizes_sum h]; exact htotal)
  rw [namesById_length] at hparse
  refine ⟨_, _, _, buildNames_eq h htotal, hparse, by simp, rfl, ?_⟩
  intro kv hkv
  have hid := h.lt kv hkv
  have hbn : kv.2 < (namesById m).length := by rw [namesById_length]; exact hid
  have hname : (namesById m)[kv.2] = kv.1 := by
    simp [namesById, nameOf_of_mem m h.nodup kv hkv]
  refine ⟨prefixSum (encodedSizes (namesById m)) kv.2, ?_, ?_⟩
  · rw [List.getElem?_map, List.getElem?_range hid]; rfl
  · rw [cstringAt_zeroTerminated (namesById m) kv.2 hbn (by rw [hname]; exact hz kv hkv), hname]

/-- C4 amended, at the map `{"bar": 1, "foo": 0}`. -/
theorem build_parse_roundtrip_witness :
    ∃ names offsets idx, buildNames fooBar = .ok (names, offsets) ∧
      parseNames names = .ok idx ∧ idx.length = fooBar.length ∧ idx = offsets ∧
      ∀ kv ∈ fooBar, ∃ off, idx[kv.2]? = some off ∧ cstringAt names off = kv.1 :=
  build_parse_roundtrip fooBar (by decide) (by decide) (by decide)

/-- C5: for every mapping from names to the dense identifiers `0..N-1` of total encoded size
below 2^32, the in-memory constructor builds the names buffer that is the concatenation, in
identifier order `0, 1, .., N-1`, of each name followed by one zero byte, and `N` offsets,
`offsets[id]` being the sum of `length(name_j) + 1` over the identifiers `j < id`.  (`nameOf m id`
is the name of the entry of identifier `id`.) -/
theorem buildNames_layout (m : NameMap) (h : Dense m)
    (htotal : (m.map (fun kv => kv.1.length + 1)).sum < 4294967296) :
    ∃ names offsets, buildNames m = .ok (names, offsets) ∧
      names = ((List.range m.length).map (fun id => nameOf m id ++ [0])).flatten ∧
      offsets.length = m.length ∧
      (∀ id, id < m.length → offsets[id]? =
        some (((List.range id).map (fun j => (nameOf m j).length + 1)).sum)) ∧
      ∀ kv ∈ m, nameOf m kv.2 = kv.1 := by
  refine ⟨_, _, buildNames_eq h htotal, ?_, by simp, ?_, ?_⟩
  · simp [zeroTerminated, namesById, List.map_map, Function.comp_def]
  · intro id hid
    rw [List.getElem?_map, List.getElem?_range hid]
    simp only [Option.map_some', Option.some.injEq, prefixSum, encodedSizes, namesById,
      List.map_map]
    rw [← List.map_take, List.take_range, Nat.min_eq_left (by omega)]
    rfl
  · intro kv hkv
    exact nameOf_of_mem m h.nodup kv hkv

/-- C5, at the map `{"bar": 1, "foo": 0}`: the buffer is `foo\0bar\0` and the offsets `[0, 4]`. -/
theorem buildNames_layout_witness :
    (∃ names offsets, buildNames fooBar = .ok (names, offsets) ∧
      names = ((List.range fooBar.length).map (fun id => nameOf fooBar id ++ [0])).flatten ∧
      offsets.length = fooBar.length ∧
      (∀ id, id < fooBar.length → offsets[id]? =
        some (((List.range id).map (fun j => (nameOf fooBar j).length + 1)).sum)) ∧
      ∀ kv ∈ fooBar, nameOf fooBar kv.2 = kv.1) ∧
    buildNames fooBar = .ok ([102, 111, 111, 0, 98, 97, 114, 0], [0, 4]) :=
  ⟨buildNames_layout fooBar (by decide) (by decide), rfl⟩

/-- C12: whenever `Mask::write` returns, it has handed the sink the header's width and height,
the names buffer, and `_Height` scan lines of `_Width` pixels in scan order; for the pixel
`p = y*_Width + x` the count is the `uint32_t` difference `_PixelsIndexes[p+1] - _PixelsIndexes[p]`
(the plain difference when the offsets are non-decreasing) and the `k`-th elements of the id and
coverage views, `k < count`, are `_Samples[_PixelsIndexes[p] + k].Id` and
`_Samples[_PixelsIndexes[p] + k].Coverage`, whatever the coverage value is.  `Mask::write` does
return for every store with the CSR invariant.  (`write` is a function of the store alone and
gives no store back: the store is not changed.) -/
theorem write_hands_views (m : Mask) :
    (∀ out, m.write = .ok out →
      out.width = m._Width ∧ out.height = m._Height ∧ out.names = m._Names ∧
      out.scanLines.length = m._Height.toNat ∧
      ∀ y x, y < m._Height.toNat → x < m._Width.toNat →
        ∃ row px a b, out.scanLines[y]? = some row ∧ row.length = m._Width.toNat ∧
          row[x]? = some px ∧
          m._PixelsIndexes[y * m._Width.toNat + x]? = some a ∧
          m._PixelsIndexes[y * m._Width.toNat + x + 1]? = some b ∧
          px.sampleCount = sub32 b a ∧
          (a ≤ b → b < 4294967296 → px.sampleCount = b - a) ∧
          px.id.length = px.sampleCount ∧ px.coverage.length = px.sampleCount ∧
          ∀ k, k < px.sampleCount → ∃ s, m._Samples[a + k]? = some s ∧
            px.id[k]? = some s.Id ∧ px.coverage[k]? = some s.Coverage) ∧
      (0 ≤ m._Width → 0 ≤ m._Height →
        CSR (m._Width * m._Height).toNat m._PixelsIndexes m._Samples →
        (∀ v ∈ m._PixelsIndexes, v < 4294967296) → ∃ out, m.write = .ok out) := by
  constructor
  · intro out hout
    unfold Mask.write at hout
    cases hloop : writeLoop m m._Height.toNat 0 with
    | error e => simp [hloop] at hout
    | ok lines =>
      simp only [hloop, Except.ok.injEq] at hout
      subst hout
      obtain ⟨hlen, hall⟩ := writeLoop_spec m _ 0 lines hloop
      refine ⟨rfl, rfl, rfl, hlen, ?_⟩
      intro y x hy hx
      obtain ⟨entries, pixels, hset, hwp, hrow⟩ := hall y hy
      rw [Nat.zero_add] at hset
      obtain ⟨helen, heall⟩ := setLine_spec _ _ _ entries hset
      obtain ⟨hplen, hpall⟩ := writePixels_spec _ entries pixels hwp
      obtain ⟨a, b, ha, hb, hentry⟩ := heall x hx
      obtain ⟨px, hpx, hcount, hid, hcov⟩ := hpall x _ hentry
      simp only at hcount hid hcov
      obtain ⟨hidlen, hidall⟩ := readRun_spec _ _ _ _ _ hid
      obtain ⟨hcovlen, hcovall⟩ := readRun_spec _ _ _ _ _ hcov
      refine ⟨pixels, px, a, b, hrow, by rw [hplen, helen], hpx, ha, hb, hcount, ?_,
        by rw [hidlen, hcount], by rw [hcovlen, hcount], ?_⟩
      · intro hab hb32
        rw [hcount, sub32_of_le hab hb32]
      · intro k hk
        rw [hcount] at hk
        obtain ⟨s, hs, hsid⟩ := hidall k hk
        obtain ⟨s1, hs1, hscov⟩ := hcovall k hk
        rw [hs] at hs1
        cases hs1
        exact ⟨s, hs, hsid, hscov⟩
  · intro hw hh hcsr htyped
    have h32 : m._Samples.length < 4294967296 := htyped _ (List.getElem?_mem hcsr.2.2.2)
    have hn : m._Height.toNat * m._Width.toNat = (m._Width * m._Height).toNat := by
      obtain ⟨w, hw1⟩ := Int.eq_ofNat_of_zero_le hw
      obtain ⟨h, hh1⟩ := Int.eq_ofNat_of_zero_le hh
      rw [hw1, hh1, ← Int.ofNat_mul]
      simp only [Int.toNat_ofNat]
      exact Nat.mul_comm _ _
    obtain ⟨out, hwrite, _⟩ := write_eq hcsr h32 hn
    exact ⟨out, hwrite⟩

/-- C12, at a 2x1 store whose coverages are 2.0, -1.0 and 0.5: they are handed over as stored. -/
theorem write_hands_views_witness :
    ((∀ out, storeWide.write = .ok out →
      out.width = storeWide._Width ∧ out.height = storeWide._Height ∧
      out.names = storeWide._Names ∧
      out.scanLines.length = storeWide._Height.toNat ∧
      ∀ y x, y < storeWide._Height.toNat → x < storeWide._Width.toNat →
        ∃ row px a b, out.scanLines[y]? = some row ∧ row.length = storeWide._Width.toNat ∧
          row[x]? = some px ∧
          storeWide._PixelsIndexes[y * storeWide._Width.toNat + x]? = some a ∧
          storeWide._PixelsIndexes[y * storeWide._Width.toNat + x + 1]? = some b ∧
          px.sampleCount = sub32 b a ∧
          (a ≤ b → b < 4294967296 → px.sampleCount = b - a) ∧
          px.id.length = px.sampleCount ∧ px.coverage.length = px.sampleCount ∧
          ∀ k, k < px.sampleCount → ∃ s, storeWide._Samples[a + k]? = some s ∧
            px.id[k]? = some s.Id ∧ px.coverage[k]? = some s.Coverage) ∧
      (0 ≤ storeWide._Width → 0 ≤ storeWide._Height →
        CSR (storeWide._Width * storeWide._Height).toNat storeWide._PixelsIndexes
          storeWide._Samples →
        (∀ v ∈ storeWide._PixelsIndexes, v < 4294967296) →
        ∃ out, storeWide.write = .ok out)) ∧
    storeWide.write =
      .ok { width := 2, height := 1, names := [],
            scanLines :=
              [[⟨2, [7, 7], [1073741824, 3212836864]⟩, ⟨1, [8], [1056964608]⟩]] } :=
  ⟨write_hands_views storeWide, rfl⟩

/-- C13, counterexample: in the 2x1 store `storeCorrupt` the offsets decrease at pixel 1
(`_PixelsIndexes[2] = 1 < 2 = _PixelsIndexes[1]`), yet `Mask::write` sets the line buffers with
the count 4294967295 for that pixel and calls the sink, which reads outside `_Samples`: no
`CorruptStore` failure is raised before the sink.  In the 1x1 store `storeCorruptBig` of 2^32
samples with the offsets `[1, 0]`, `Mask::write` returns and the sink has received the count
4294967295. -/
theorem decreasing_offsets_written :
    storeCorrupt._PixelsIndexes[1]? = some 2 ∧ storeCorrupt._PixelsIndexes[2]? = some 1 ∧
      setLine storeCorrupt._PixelsIndexes storeCorrupt._Width.toNat 0
        = .ok [⟨2, 0, 0⟩, ⟨4294967295, 2, 2⟩] ∧
      storeCorrupt.write = .error .outOfRange ∧
      storeCorruptBig._PixelsIndexes = [1, 0] ∧
      ∃ out, storeCorruptBig.write = .ok out ∧
        out.scanLines.flatten.map DeepPixel.sampleCount = [4294967295] :=
  ⟨rfl, rfl, rfl, rfl, rfl,
    ⟨_, write_one_pixel_wrapped storeCorruptBig rfl rfl rfl (List.length_replicate _ _), rfl⟩⟩

/-- C13, amended: `Mask::write` does not test the offsets and has no `CorruptStore` failure.
For a pixel `p = y*_Width + x` whose offsets decrease, `b = _PixelsIndexes[p+1] <
a = _PixelsIndexes[p]` (`uint32_t` values), the count it puts into the line buffer is the
`uint32_t` difference `b + 2^32 - a`, with the cursors at `a`; that count is what the sink has
received whenever `write` returns, and the only way `write` fails is an access out of range. -/
theorem write_wraps_decreasing (m : Mask) (y x a b : Nat)
    (hy : y < m._Height.toNat) (hx : x < m._Width.toNat)
    (ha : m._PixelsIndexes[y * m._Width.toNat + x]? = some a)
    (hb : m._PixelsIndexes[y * m._Width.toNat + x + 1]? = some b)
    (hlt : b < a) (ha32 : a < 4294967296) :
    ((y + 1) * m._Width.toNat < m._PixelsIndexes.length →
        ∃ entries, setLine m._PixelsIndexes m._Width.toNat (y * m._Width.toNat) = .ok entries ∧
          entries[x]? = some { sampleCount := b + 4294967296 - a, id := a, coverage := a }) ∧
      (∀ out, m.write = .ok out → ∃ row px, out.scanLines[y]? = some row ∧
        row[x]? = some px ∧ px.sampleCount = b + 4294967296 - a) ∧
      (∀ e, m.write = .error e → e = .outOfRange) := by
  refine ⟨?_, ?_, ?_⟩
  · intro hlen
    obtain ⟨entries, hset⟩ := setLine_returns m._PixelsIndexes m._Width.toNat
      (y * m._Width.toNat) (by rw [Nat.succ_mul] at hlen; exact hlen)
    obtain ⟨_, hall⟩ := setLine_spec _ _ _ entries hset
    obtain ⟨a1, b1, ha1, hb1, hentry⟩ := hall x hx
    rw [ha] at ha1
    rw [hb] at hb1
    cases ha1
    cases hb1
    rw [sub32_of_lt hlt ha32] at hentry
    exact ⟨entries, hset, hentry⟩
  · intro out hout
    unfold Mask.write at hout
    cases hloop : writeLoop m m._Height.toNat 0 with
    | error e => simp [hloop] at hout
    | ok lines =>
      simp only [hloop, Except.ok.injEq] at hout
      subst hout
      obtain ⟨_, hall⟩ := writeLoop_spec m _ 0 lines hloop
      obtain ⟨entries, pixels, hset, hwp, hrow⟩ := hall y hy
      rw [Nat.zero_add] at hset
      obtain ⟨_, heall⟩ := setLine_spec _ _ _ entries hset
      obtain ⟨_, hpall⟩ := writePixels_spec _ entries pixels hwp
      obtain ⟨a1, b1, ha1, hb1, hentry⟩ := heall x hx
      rw [ha] at ha1
      rw [hb] at hb1
      cases ha1
      cases hb1
      obtain ⟨px, hpx, hcount, _⟩ := hpall x _ hentry
      simp only at hcount
      exact ⟨pixels, px, hrow, hpx, by rw [hcount, sub32_of_lt hlt ha32]⟩
  · intro e he
    unfold Mask.write at he
    cases hloop : writeLoop m m._Height.toNat 0 with
    | error e1 =>
      simp only [hloop] at he
      cases he
      exact writeLoop_error_kind _ _ _ _ hloop
    | ok lines => simp [hloop] at he

/-- C13 amended, at pixel 1 of the 2x1 store `storeCorrupt`. -/
theorem write_wraps_decreasing_witness :
    ((0 + 1) * storeCorrupt._Width.toNat < storeCorrupt._PixelsIndexes.length →
        ∃ entries, setLine storeCorrupt._PixelsIndexes storeCorrupt._Width.toNat
            (0 * storeCorrupt._Width.toNat) = .ok entries ∧
          entries[1]? = some { sampleCount := 1 + 4294967296 - 2, id := 2, coverage := 2 }) ∧
      (∀ out, storeCorrupt.write = .ok out → ∃ row px, out.scanLines[0]? = some row ∧
        row[1]? = some px ∧ px.sampleCount = 1 + 4294967296 - 2) ∧
      (∀ e, storeCorrupt.write = .error e → e = .outOfRange) :=
  write_wraps_decreasing storeCorrupt 0 1 2 1 (by decide) (by decide) rfl rfl (by decide)
    (by decide)

/-- C14, counterexample: the map `hugeNames` gives the dense identifiers 0 and 1 to two different
names of 4294967295 and 4294967294 bytes.  Their encoded sizes are stored in 32 bits as 0 and
4294967295, so the in-memory constructor builds a name table whose two offsets are both 0: two
distinct identifiers have the same offset. -/
theorem huge_names_share_offset :
    Dense hugeNames ∧ hugeNames.length = 2 ∧
      ∃ names, buildNames hugeNames = .ok (names, [0, 0]) :=
  ⟨List.Perm.refl _, rfl,
    buildNames_two_wrapped _ _ (List.length_replicate _ _) (List.length_replicate _ _)⟩

/-- C14, amended: for every mapping from names to the dense identifiers `0..N-1` of total
encoded size below 2^32, the in-memory constructor builds a name table with `N` offsets in which
every `offsets[id]` is followed, inside `names`, by a zero byte (at some position `>= offsets[id]`
and `< len(names)`), and no two distinct identifiers have the same offset. -/
theorem buildNames_invariant (m : NameMap) (h : Dense m)
    (htotal : (m.map (fun kv => kv.1.length + 1)).sum < 4294967296) :
    ∃ names offsets, buildNames m = .ok (names, offsets) ∧ offsets.length = m.length ∧
      (∀ id, id < m.length → ∃ off z, offsets[id]? = some off ∧ off ≤ z ∧
        z < names.length ∧ names[z]? = some 0) ∧
      ∀ id1 id2, id1 < m.length → id2 < m.length → id1 ≠ id2 →
        offsets[id1]? ≠ offsets[id2]? := by
  refine ⟨_, _, buildNames_eq h htotal, by simp, ?_, ?_⟩
  · intro id hid
    have hbn : id < (namesById m).length := by rw [namesById_length]; exact hid
    have hbe : id < (encodedSizes (namesById m)).length := by
      rw [encodedSizes_length]; exact hbn
    have he : (encodedSizes (namesById m))[id] = (namesById m)[id].length + 1 := by
      simp [encodedSizes]
    have hfit := prefixSum_succ_le_sum (encodedSizes (namesById m)) id hbe
    refine ⟨prefixSum (encodedSizes (namesById m)) id,
      prefixSum (encodedSizes (namesById m)) id + (namesById m)[id].length, ?_, by omega, ?_, ?_⟩
    · rw [List.getElem?_map, List.getElem?_range hid]; rfl
    · rw [zeroTerminated_length]; omega
    · rw [zeroTerminated_getElem? (namesById m) id hbn _ (Nat.le_refl _)]
      simp
  · intro id1 id2 h1 h2 hne
    rw [List.getElem?_map, List.getElem?_range h1, List.getElem?_map, List.getElem?_range h2]
    simp only [Option.map_some', ne_eq, Option.some.injEq]
    have hlen : (encodedSizes (namesById m)).length = m.length := by
      rw [encodedSizes_length, namesById_length]
    rcases Nat.lt_or_gt_of_ne hne with hlt | hgt
    · have := prefixSum_lt_of_lt _ (encodedSizes_pos (namesById m)) id1 id2 hlt (by omega)
      omega
    · have := prefixSum_lt_of_lt _ (encodedSizes_pos (namesById m)) id2 id1 hgt (by omega)
      omega

/-- C14 amended, at the map `{"bar": 1, "foo": 0}`. -/
theorem buildNames_invariant_witness :
    ∃ names offsets, buildNames fooBar = .ok (names, offsets) ∧
      offsets.length = fooBar.length ∧
      (∀ id, id < fooBar.length → ∃ off z, offsets[id]? = some off ∧ off ≤ z ∧
        z < names.length ∧ names[z]? = some 0) ∧
      ∀ id1 id2, id1 < fooBar.length → id2 < fooBar.length → id1 ≠ id2 →
        offsets[id1]? ≠ offsets[id2]? :=
  buildNames_invariant fooBar (by decide) (by decide)

/-- C16: the name scan of an empty names buffer returns the empty list of offsets, the count of
the first loop being 0, and raises nothing; a mask read from a file whose `Names` attribute is
empty has no name index. -/
theorem parseNames_empty :
    parseNames [] = .ok [] ∧ countNamesLoop [] (([] : List Nat).length + 1) 0 0 = .ok 0 ∧
      ∀ file m, file.names = some [] → Mask.Mask_file file = .ok m →
        m._Names = [] ∧ m._NamesIndexes = [] := by
  refine ⟨rfl, rfl, ?_⟩
  intro file m hnames hm
  have hparse : parseNames [] = .ok [] := rfl
  unfold Mask.Mask_file at hm
  rw [hnames] at hm
  simp only [hparse] at hm
  cases hfill : fillLoop file (countPhase file).1 file.height 0 0
      (resizeSamples (countPhase file).2) with
  | error e => simp [hfill] at hm
  | ok samples =>
    simp only [hfill, Except.ok.injEq] at hm
    subst hm
    exact ⟨rfl, rfl⟩

/-- C17, the code at the failing input: for the 2x1 image whose pixels hold 1 and 0 samples,
the in-memory constructor returns a store with `_PixelsIndexes = [0, 1, 1]` and one sample, and
`Mask::write` sets the id and coverage cursors of pixel 1 at `_Samples[1]`, an index equal to
`_Samples.size ()`, not below it.  The fill loop of the file constructor sets the same cursors
for the file `file10` with the counts 1 and 0, `_Samples` holding one sample. -/
theorem cursor_one_past_the_end :
    Mask.Mask_pixels 2 1 [] [[⟨5, 1056964608⟩], []] =
        .ok { _Width := 2, _Height := 1, _Names := [], _NamesIndexes := [],
              _PixelsIndexes := [0, 1, 1], _Samples := [⟨5, 1056964608⟩] } ∧
      setLine [0, 1, 1] 2 0 = .ok [⟨1, 0, 0⟩, ⟨0, 1, 1⟩] ∧
      ¬ (1 < [(⟨5, 1056964608⟩ : Sample)].length) ∧
      countPhase file10 = ([0, 1, 1], 1) ∧
      setCursors (countPhase file10).1 file10.width 0 = .ok ([0, 1], [0, 1]) ∧
      ¬ (1 < (resizeSamples (countPhase file10).2).length) :=
  ⟨rfl, rfl, by decide, rfl, rfl, by decide⟩

end openidmask
